import Mathlib

/-
Verification of the ggp (General Game Playing) repository against its
natural-language specification.

The development shallowly embeds the Python code of the repository:
  - src/ggp/players.py      (Minimax, AlphaBeta, BoundedDepth, Random, MCTS)
  - src/ggp/gamestate.py    (GeneralGameState.apply_moves, utility, equality)
  - src/ggp/languages/prefixgdl.py (GDL-to-Prolog variable translation)
  - src/pygdl/playerserver.py (start-message handling)

Pure functions become Lean functions; the Prolog engine calls made by
gamestate.py are modelled as opaque deterministic functions; the calls
players.py makes into gamestate.py are modelled as the interpreter
executes them — several of those calls are stale against gamestate.py's
current interface and raise (a keyword argument legal_actions does not
accept, a .get() method Action does not have, a required random_action
parameter that is not passed), and those exceptions are part of the
embedding, as Except results; the in-place tree mutation of the MCTS
search is modelled as a step relation on trees whose results include the
raised exception; randomized choices (random.randint, random.shuffle)
are modelled by explicit draw sequences and explicit permutations.
-/

namespace GGP

/-- Python exception kinds raised by the embedded code paths. -/
inductive PyErr where
  | typeError
  | assertionError
  | attributeError
  | indexError
  deriving Repr, DecidableEq

/-! ## Game trees for Minimax and AlphaBeta (src/ggp/players.py lines 300-402)

A `GTree` is the unfolding of the game reachable from a state: a leaf is
a terminal state carrying `game_state.utility(self.role)`; a node is a
non-terminal state with one `GOpp` (the opponent-product outcomes) per
own move, lists non-empty by construction.  The search never gets to
consume the move structure (see `scoreEstimateRun`), but the type keeps
the full game shape so statements quantify over every game state. -/

mutual

inductive GTree where
  | leaf : Int → GTree
  | node : GMoves → GTree
  deriving Repr, DecidableEq

inductive GMoves where
  | one : GOpp → GMoves
  | cons : GOpp → GMoves → GMoves
  deriving Repr, DecidableEq

inductive GOpp where
  | one : GTree → GOpp
  | cons : GTree → GOpp → GOpp
  deriving Repr, DecidableEq

end

/-- `Minimax.score_estimate_and_move_sequence` (players.py lines
314-376) as the source executes it, with `prev_min_step_score = β` —
the same function for `Minimax` and for `AlphaBeta`, which overrides
only `min_step_break` and `max_step_break`.  On a terminal state the
non-recursive branch (lines 384-388) returns the state's utility.  On
any non-terminal state the very next statement builds `own_moves` by
calling `game_state.legal_actions(self.role, persistent=True)`
(lines 326-328); `GeneralGameState.legal_actions(self, role)`
(gamestate.py line 389) accepts no `persistent` keyword, and a
generator function binds its arguments at call time, so the call raises
`TypeError` before a single move is yielded.  Everything after
line 328 — the shuffle, the trivial-turn shortcut, both loops, and the
break predicates in which the two classes differ — is unreachable, for
every `score_matters` and every β. -/
def scoreEstimateRun : GTree → Int → Except PyErr Int
  | .leaf u, _ => .ok u
  | .node _, _ => .error .typeError

/-! ## Utility of a state (src/ggp/gamestate.py lines 376-387)

`GeneralGameState.utility(role)` builds the query `goal(role, V)` and
executes it once with `self._query_term(utility_query)(check=True)`,
reading back the binding of `V` from the first solution found. -/

/-- Modelled from the spec: the Prolog side of the query — the module
`ggp_state.pl` consulted by gamestate.py and the swilite binding that
executes a query term — is not under src/.  Per spec section 4.2 the
reasoner enumerates solutions in a deterministic order determined by the
rule set (SLD resolution visits clauses in program order), and a
single execution of the query term yields the first solution.  A game's
`goal` facts are modelled as an ordered list of (role, value) clauses and
the solutions for a role are their values in program order. -/
def goalSolutions (goalFacts : List (String × Int)) (role : String) : List Int :=
  (goalFacts.filter (fun p => p.1 = role)).map (fun p => p.2)

/-- Modelled from the spec: executing the `goal(role, V)` query term once
(`Term.__call__` with `check=True`) finds the first clause whose role
matches and binds `V` to its value; `utility` then converts the binding
to an integer.  Returns `none` when the call fails (no goal clause). -/
def utilityModel : List (String × Int) → String → Option Int
  | [], _ => none
  | (r, v) :: rest, role => if r = role then some v else utilityModel rest role

/-- The value the claim says `utility` returns: the numerically maximum
integer over all provable `goal(role, V)` solutions. -/
def maxGoalValue (goalFacts : List (String × Int)) (role : String) : Option Int :=
  match goalSolutions goalFacts role with
  | [] => none
  | v :: vs => some (vs.foldl max v)

/-- Concrete game rules whose first provable goal value for role "r" is
50 while a second provable goal value is 100. -/
def twoGoalFacts : List (String × Int) := [("r", 50), ("r", 100)]

/-! ## State application (src/ggp/gamestate.py lines 313-486)

`GeneralGameState` holds four fields set in `__init__` and never written
afterwards: `game`, `move_history`, `truth_history`, `truth_state` (the
latter three are `TermRecord`s; they are modelled by the text of the
recorded term).  `apply_moves` (lines 419-473) issues three Prolog
calls — `prepare_moves/3`, `truth_history/4`, `final_truth_state/2` —
and then builds a brand-new `GeneralGameState` from their outputs.  The
Prolog predicates live outside the Python code and are modelled as
opaque deterministic functions (an `ApplyEngine`); a failing call makes
`apply_moves` raise `ValueError`.  Methods are embedded state-passing
style: the result is paired with the receiver's field values after the
call, so that the frame property is a statement, not a convention. -/

structure ApplyEngine where
  prepareMoves : String → List (String × String) → Option String
  truthHistory4 : String → List String → String → Option String
  finalTruthState : String → Option String

structure GGState where
  gameId : String
  moveHistory : List String
  truthHistory : String
  truthState : String
  deriving Repr, DecidableEq

/-- `GeneralGameState.__eq__` (lines 363-366): game equality and
truth-state equality (record identity or recorded-term equality; both
collapse to value equality of the recorded term). -/
def ggStateEq (a b : GGState) : Bool :=
  a.gameId == b.gameId && a.truthState == b.truthState

/-- `GeneralGameState.apply_moves` (lines 419-473).  `moves` is the
does-list built from the moves dict.  Returns the `Except` result of the
call paired with the receiver's fields after the call. -/
def applyMoves (e : ApplyEngine) (s : GGState) (moves : List (String × String)) :
    Except String GGState × GGState :=
  match e.prepareMoves s.gameId moves with
  | none => (.error "Invalid move set. Possibly not 1 move per role.", s)
  | some preparedMoves =>
    let newMoveHistory := preparedMoves :: s.moveHistory
    match e.truthHistory4 s.gameId newMoveHistory s.truthHistory with
    | none => (.error "Invalid moves", s)
    | some newTruthHistory =>
      match e.finalTruthState newTruthHistory with
      | none => (.error "final_truth_state failed", s)
      | some newTruthState =>
        (.ok { gameId := s.gameId
               moveHistory := newMoveHistory
               truthHistory := newTruthHistory
               truthState := newTruthState }, s)

/-- A concrete engine whose calls all succeed, for witnesses. -/
def okEngine : ApplyEngine where
  prepareMoves := fun _ ms => some (String.intercalate "," (ms.map (fun p => p.2)))
  truthHistory4 := fun _ mh th => some (th ++ ";" ++ String.intercalate "," mh)
  finalTruthState := fun th => some (th ++ "!")

/-! ## BoundedDepth iterative deepening (src/ggp/players.py lines 405-505)

`BoundedDepth.score_estimate_and_move_sequence` (lines 464-472) reads

    self.timer.check()
    super().score_estimate_and_move_sequence(...)

with no `return` statement, so every call returns Python `None`
regardless of what the superclass search computes.  The game is embedded
as a tree whose internal nodes carry the heuristic value
`self.heuristic_function(game_state)` used at the depth frontier
(Python's float arithmetic `h * 0.8 + 10` is modelled exactly over the
rationals; the claim does not depend on the numbers).  Search results
are values of type `Except PyErr (Option Rat × List Unit)`: the payload
is the returned `(score, move_sequence)` tuple, where `score = none`
models Python `None` (trivial-turn return), and errors model raised
exceptions.  Dynamic dispatch means every recursive
`self.score_estimate_and_move_sequence` call lands on the BoundedDepth
override and hence observes `None`; the tuple unpacking
`score, move_sequence = ...` then raises `TypeError`. -/

mutual

inductive BTree where
  | term : Rat → BTree
  | node : Rat → BMoves → BTree
  deriving Repr, DecidableEq

inductive BMoves where
  | one : BOpp → BMoves
  | cons : BOpp → BMoves → BMoves
  deriving Repr, DecidableEq

inductive BOpp where
  | one : BTree → BOpp
  | cons : BTree → BOpp → BOpp
  deriving Repr, DecidableEq

end

def movesCount : BMoves → Nat
  | .one _ => 1
  | .cons _ rest => 1 + movesCount rest

mutual

/-- Body of `Minimax.score_estimate_and_move_sequence` (lines 314-376) as
executed by a BoundedDepth player at depth `d` with depth limit `maxd`:
the non-recursive part is BoundedDepth's override (lines 441-450), with
the heuristic rescaled by `h * 0.8 + 10`; then the trivial-turn shortcut
(lines 332-334); then the max loop over own moves. -/
def mmBody (maxd : Nat) : BTree → Nat → Bool → Rat → Except PyErr (Option Rat × List Unit)
  | .term u, _, _, _ => .ok (some u, [])
  | .node h ms, d, scoreMatters, _ =>
    if maxd ≤ d then .ok (some (h * (4 / 5) + 10), [])
    else if scoreMatters = false ∧ movesCount ms = 1 then .ok (none, [()])
    else mmMaxLoop maxd ms d (-1) []

/-- The `for own_move in own_moves` loop with accumulator
`max_step_score` (initially `min_utility - 1`) and its move sequence. -/
def mmMaxLoop (maxd : Nat) : BMoves → Nat → Rat → List Unit → Except PyErr (Option Rat × List Unit)
  | .one m, d, best, bestSeq =>
    match mmMinLoop maxd m d 101 best with
    | .error e => .error e
    | .ok r =>
      let p := if best < r.1 then r else (best, bestSeq)
      .ok (some p.1, p.2)
  | .cons m rest, d, best, bestSeq =>
    match mmMinLoop maxd m d 101 best with
    | .error e => .error e
    | .ok r =>
      let p := if best < r.1 then r else (best, bestSeq)
      if p.1 = 100 then .ok (some p.1, p.2) else mmMaxLoop maxd rest d p.1 p.2

/-- The inner loop over the opponent move product.  Each iteration calls
`self.score_estimate_and_move_sequence(...)`, which dispatches to the
BoundedDepth override: the override runs the superclass search
(`mmBody`) but returns `None`, so the unpacking
`score, move_sequence = ...` raises `TypeError`. -/
def mmMinLoop (maxd : Nat) : BOpp → Nat → Rat → Rat → Except PyErr (Rat × List Unit)
  | .one c, d, cur, _ =>
    match mmBody maxd c (d + 1) true cur with
    | .error e => .error e
    | .ok _ => .error .typeError
  | .cons c _, d, cur, _ =>
    match mmBody maxd c (d + 1) true cur with
    | .error e => .error e
    | .ok _ => .error .typeError

end

/-- `BoundedDepth.score_estimate_and_move_sequence` (lines 464-472): runs
the superclass search and returns `None` (there is no return statement). -/
def bdOverride (maxd : Nat) (t : BTree) (d : Nat) (scoreMatters : Bool) (β : Rat) :
    Except PyErr (Option (Option Rat × List Unit)) :=
  match mmBody maxd t d scoreMatters β with
  | .error e => .error e
  | .ok _ => .ok none

/-- `SearchPlayer.get_move` (lines 236-248) as executed by a BoundedDepth
player: `score, move_sequence = self.get_best_score_and_move_sequence(
score_matters=False)` unpacks the override's result. -/
def spGetMove (maxd : Nat) (t : BTree) : Except PyErr Unit :=
  match bdOverride maxd t 0 false 101 with
  | .error e => .error e
  | .ok none => .error .typeError
  | .ok (some (_, [])) => .error .typeError
  | .ok (some (_, _ :: _)) => .ok ()

/-- Whether a depth-`maxd` search from `t` declares a trivial turn
(`notify_trivial_turn`, reachable only from the `score_matters=False`
root call at depth 0). -/
def trivialTurn (t : BTree) (maxd : Nat) : Bool :=
  match t with
  | .term _ => false
  | .node _ ms => decide (0 < maxd) && decide (movesCount ms = 1)

/-- The `while True` iterative-deepening loop of `BoundedDepth.get_move`
(lines 474-499) for `max_depth == -1`.  `fuel` counts how many loop
iterations run before the play-clock timer would fire: with fuel
exhausted, `timer.check()` raises `TimeUp`, which the handler catches,
returning the best action of the last completed depth (modelled `.ok`).
Any other exception escaping `super().get_move()` propagates. -/
def bdIDLoop (t : BTree) : Nat → Nat → Except PyErr Unit
  | 0, _ => .ok ()
  | fuel + 1, maxd =>
    match spGetMove maxd t with
    | .error e => .error e
    | .ok a => if trivialTurn t maxd then .ok a else bdIDLoop t fuel (maxd + 1)

/-- `BoundedDepth.get_move` with `max_depth == -1` (lines 474-499):
fetches `first_action`, then deepens from depth 1. -/
def bdGetMoveID (t : BTree) (fuel : Nat) : Except PyErr Unit :=
  bdIDLoop t fuel 1

/-- A minimal concrete game for the failing input: a non-terminal state
with two own moves, each leading deterministically to a terminal state. -/
def exBTree : BTree :=
  .node 0 (.cons (.one (.term 100)) (.one (.one (.term 0))))

/-! ## MCTS search trees (src/ggp/players.py lines 584-799)

A `MonteCarloTreeSearch.Node` is modelled by the data the visit-count
claim depends on: whether its game state is terminal, the number of
remaining `unseen_actions`, its visit count `times_seen`, and its
children (the values of the `action_child` dict).  `run_search`
(lines 652-677) is modelled as a step relation whose result is either
the updated tree or the Python exception that unwinds out of it. -/

inductive MTree where
  | mk : Bool → Nat → Nat → List MTree → MTree
  deriving Repr

def MTree.terminal : MTree → Bool
  | .mk b _ _ _ => b

def MTree.unseen : MTree → Nat
  | .mk _ u _ _ => u

def MTree.timesSeen : MTree → Nat
  | .mk _ _ ts _ => ts

def MTree.children : MTree → List MTree
  | .mk _ _ _ cs => cs

/-- One `run_search` invocation (players.py lines 652-677) as the
source executes it, seen from a node on the search path; the result is
the updated node or the Python exception that unwinds.  The select loop
descends while the node has no unseen actions and has children (the UCB
choice is abstracted to an arbitrary child; no reachable tree ever has
children, so the loop never actually descends).  At the stopping node,
a terminal state is backpropagated: `Node.update` (lines 790-792) adds
1 to `times_seen` of every node on the path.  A non-terminal stopping
node enters the Expand step, whose first statement
`node.get_random_unseen_action()` evaluates
`self.unseen_actions[-1].get()` (line 771); `unseen_actions` holds the
`Action` objects yielded by `legal_actions` (gamestate.py line 399),
and `Action` (gamestate.py line 303) has no `get` method, so the step
raises `AttributeError` — with an empty list the `[-1]` indexing raises
`IndexError` first.  The exception unwinds before any leaf is created,
attached or any visit count updated (updates happen only in
`backpropagate_score`, after expansion), so the tree is untouched, and
`run_search`'s callers catch only `TimeUp`. -/
inductive RunSearchExec : MTree → Except PyErr MTree → Prop where
  | stopTerminal (u ts : Nat) (cs : List MTree)
      (hsel : ¬(u = 0 ∧ cs ≠ [])) :
      RunSearchExec (.mk true u ts cs) (.ok (.mk true u (ts + 1) cs))
  | expandAttrError (u ts : Nat) (cs : List MTree) (hu : 0 < u) :
      RunSearchExec (.mk false u ts cs) (.error .attributeError)
  | expandIndexError (ts : Nat) :
      RunSearchExec (.mk false 0 ts []) (.error .indexError)
  | descendOk (b : Bool) (ts : Nat) (l1 l2 : List MTree) (c c' : MTree)
      (hstep : RunSearchExec c (.ok c')) :
      RunSearchExec (.mk b 0 ts (l1 ++ c :: l2))
        (.ok (.mk b 0 (ts + 1) (l1 ++ c' :: l2)))
  | descendErr (b : Bool) (ts : Nat) (l1 l2 : List MTree) (c : MTree) (e : PyErr)
      (hstep : RunSearchExec c (.error e)) :
      RunSearchExec (.mk b 0 ts (l1 ++ c :: l2)) (.error e)

/-- A fresh root as built by `_make_root_node`: never visited, no
children, and (by the claim's precondition) a non-terminal state has at
least one legal action. -/
def FreshRoot (t : MTree) : Prop :=
  t.timesSeen = 0 ∧ t.children = [] ∧ (t.terminal = false → 1 ≤ t.unseen)

/-- Concrete fresh root: non-terminal, one legal action, unvisited. -/
def exRoot : MTree := .mk false 1 0 []

/-! ## Random player (src/ggp/players.py lines 198-209)

`random_action(game_state, role, as_string)` makes one pass over
`game_state.legal_actions(role)`: at the i-th action (0-based) it draws
`random.randint(0, i)` and replaces the kept action when the draw is 0.
The randomness is made explicit: `draws` is the list of drawn values,
one per action.  All three parameters of `random_action` are required
and have no defaults; `GameSimulator.play_random_game` calls it with
`as_string=False` (line 522) and the loop runs, while `Random.get_move`
(line 209) omits `as_string`, so that call raises `TypeError` at
argument binding, before the loop body. -/

def randomAction {α : Type} (actions : List α) (draws : List Nat) : Option α :=
  (actions.zip draws).foldl (fun sel ad => if ad.2 = 0 then some ad.1 else sel) none

/-- All draw sequences the loop can observe for `n` actions: the i-th
entry is a value of `random.randint(0, i)`, i.e. lies in `[0, i]`. -/
def drawSeqs : Nat → List (List Nat)
  | 0 => [[]]
  | n + 1 => (drawSeqs n).flatMap (fun s => (List.range (n + 1)).map (fun r => s ++ [r]))

/-- Python `str(...)` as `Random.get_move` would apply it to
`random_action`'s result: `str(None)` is the string "None". -/
def pyStrOptAction : Option String → String
  | none => "None"
  | some a => a

/-- The call binding of `random_action` (players.py line 198): supplied
with an `as_string` argument it binds and the reservoir pass runs; a
call that omits `as_string` raises `TypeError` before the body. -/
def callRandomAction (actions : List String) (draws : List Nat) :
    Option Bool → Except PyErr (Option String)
  | none => .error .typeError
  | some _ => .ok (randomAction actions draws)

/-- `Random.get_move` (players.py lines 206-209) as the source executes
it: the `random_action` call omits the required `as_string` argument,
so the `TypeError` propagates before `str(...)` is applied. -/
def randomGetMoveRun (actions : List String) (draws : List Nat) : Except PyErr String :=
  match callRandomAction actions draws none with
  | .error e => .error e
  | .ok sel => .ok (pyStrOptAction sel)

/-! ## GDL-to-Prolog variable translation (src/ggp/languages/prefixgdl.py)

The parse actions of `PrefixGdlToProlog` (lines 56-79) translate each
parsed term bottom-up: an atom becomes a Prolog atom, a variable token
is looked up in `self.variables` and, when absent, bound to a freshly
created Prolog variable (`swilite.Term()`), and `statement_action`
resets `self.variables = {}` at the end of every top-level statement.
Fresh Prolog variables are modelled by a monotone counter: each call of
`swilite.Term()` yields a distinct variable identity.  (The rewriting of
the rule operator inside `_compound_term_action` rearranges already
translated subterms and cannot affect variable identities, so it is not
modelled.)  Terms are given in parsed form; argument lists are a
separate inductive so that all recursions are structural. -/

mutual

inductive GdlTerm where
  | atom : String → GdlTerm
  | var : String → GdlTerm
  | comp : String → GdlArgs → GdlTerm
  deriving Repr, DecidableEq

inductive GdlArgs where
  | nil : GdlArgs
  | cons : GdlTerm → GdlArgs → GdlArgs
  deriving Repr, DecidableEq

end

mutual

inductive PrologT where
  | atom : String → PrologT
  | pvar : Nat → PrologT
  | comp : String → PrologArgs → PrologT
  deriving Repr, DecidableEq

inductive PrologArgs where
  | nil : PrologArgs
  | cons : PrologT → PrologArgs → PrologArgs
  deriving Repr, DecidableEq

end

/-- The translator state: the `self.variables` dict (name to variable
identity, most recent binding first) and the next fresh identity. -/
structure VarState where
  vars : List (String × Nat)
  next : Nat
  deriving Repr, DecidableEq

/-- Dictionary lookup in the modelled `self.variables`. -/
def lookupVar : List (String × Nat) → String → Option Nat
  | [], _ => none
  | (w, i) :: rest, v => if w = v then some i else lookupVar rest v

mutual

/-- The `variable_action`/`_atom_action`/`_compound_term_action` parse
actions (lines 61-77, 81-97), run left-to-right over a term. -/
def trTerm : GdlTerm → VarState → PrologT × VarState
  | .atom s, st => (.atom s, st)
  | .var v, st =>
    match lookupVar st.vars v with
    | some i => (.pvar i, st)
    | none => (.pvar st.next, ⟨(v, st.next) :: st.vars, st.next + 1⟩)
  | .comp n args, st =>
    let p := trArgs args st
    (.comp n p.1, p.2)

def trArgs : GdlArgs → VarState → PrologArgs × VarState
  | .nil, st => (.nil, st)
  | .cons t ts, st =>
    let p := trTerm t st
    let q := trArgs ts p.2
    (.cons p.1 q.1, q.2)

end

/-- `statement_action` (lines 70-73): a top-level statement is translated
with the current (empty) variable dict, which is then reset; the fresh
variable counter persists across statements.  Returns the translated
statement and the counter afterwards. -/
def trStatement (t : GdlTerm) (c : Nat) : PrologT × Nat :=
  let p := trTerm t ⟨[], c⟩
  (p.1, p.2.next)

mutual

/-- Pure substitution of a name-to-identity map into a term: the result
every occurrence of a variable name receives the single identity the map
assigns it (or fails if the name is unmapped). -/
def applyMap (m : List (String × Nat)) : GdlTerm → Option PrologT
  | .atom s => some (.atom s)
  | .var v => (lookupVar m v).map .pvar
  | .comp n args => (applyMapArgs m args).map (.comp n)

def applyMapArgs (m : List (String × Nat)) : GdlArgs → Option PrologArgs
  | .nil => some .nil
  | .cons t ts =>
    match applyMap m t, applyMapArgs m ts with
    | some t', some ts' => some (.cons t' ts')
    | _, _ => none

end

mutual

/-- The variable identities occurring in a translated term. -/
def varIds : PrologT → List Nat
  | .atom _ => []
  | .pvar i => [i]
  | .comp _ args => varIdsArgs args

def varIdsArgs : PrologArgs → List Nat
  | .nil => []
  | .cons t ts => varIds t ++ varIdsArgs ts

end

/-- A map assigns distinct identities to distinct names (so distinct
variable tokens of one statement become distinct Prolog variables). -/
def MapInj (m : List (String × Nat)) : Prop :=
  ∀ v w i, lookupVar m v = some i → lookupVar m w = some i → v = w

/-! ## Player server start handling (src/pygdl/playerserver.py)

`SerialGeneralGamePlayingMessageHandler` keeps `self.game_players`
(game id to player) and delegates game creation to the game manager;
`do_start` (lines 111-145) raises `ForbiddenMessageError` when the id
already has a player — before `create_game` or the player factory run —
and `post_response` (lines 214-240) maps that exception to HTTP 403.
The handler state is threaded explicitly; a raised exception carries the
state at the raise point. -/

structure ServerState where
  createdGames : List String
  gamePlayers : List (String × Nat)
  deriving Repr, DecidableEq

inductive MsgErr where
  | malformed : String → MsgErr
  | forbidden : String → MsgErr
  deriving Repr, DecidableEq

/-- Association lookup in the `game_players` dict. -/
def lookupPlayer : List (String × Nat) → String → Option Nat
  | [], _ => none
  | (g, p) :: rest, k => if g = k then some p else lookupPlayer rest k

/-- `do_start` (lines 111-145); `args` are the five message arguments
after the message type.  The new player is tagged with a fresh number. -/
def doStart (st : ServerState) (args : List String) : Except MsgErr String × ServerState :=
  if args.length ≠ 5 then (.error (.malformed "NumberOfArgumentsError"), st)
  else
    let gameId := args.getD 0 ""
    match lookupPlayer st.gamePlayers gameId with
    | some _ => (.error (.forbidden "already being played"), st)
    | none =>
      let st1 : ServerState := { st with createdGames := gameId :: st.createdGames }
      let player := st1.gamePlayers.length
      (.ok "ready", { st1 with gamePlayers := (gameId, player) :: st1.gamePlayers })

/-- `post_response` (lines 214-240) for a start message: 200 on success,
400 on `MalformedMessageError`, 403 on `ForbiddenMessageError`. -/
def postStart (st : ServerState) (args : List String) : Nat × ServerState :=
  match doStart st args with
  | (.ok _, st') => (200, st')
  | (.error (.malformed _), st') => (400, st')
  | (.error (.forbidden _), st') => (403, st')

/-! ## MCTS node action bookkeeping (src/ggp/players.py lines 738-799)

A node's action bookkeeping: the string forms of the legal actions of
the node's role at its state, the `unseen_actions` list (last element is
the next expansion candidate) and the keys of the `action_child` dict.
`Node.__init__` works: `_get_unseen_actions` (lines 794-799) calls
`legal_actions` without extra keywords, filters by `str(action)` against
the `action_child` dict — empty at construction — and shuffles; the
shuffle is an arbitrary permutation supplied by the caller.  The two
operations that would move actions across do not: both evaluate
`self.unseen_actions[-1].get()` on an `Action` object, which has no
`get` method (gamestate.py line 303). -/

structure McNode where
  legal : List String
  unseenActions : List String
  actionChild : List String
  deriving Repr, DecidableEq

/-- `Node.__init__` with `_get_unseen_actions`: `shuffled` is the
caller-chosen order of the legal actions (empty `action_child` makes the
filter a no-op). -/
def mkMcNode (legal shuffled : List String) : McNode :=
  { legal := legal, unseenActions := shuffled, actionChild := [] }

/-- `Node.get_random_unseen_action` (players.py lines 770-771) as the
source executes it: `self.unseen_actions[-1]` raises `IndexError` on an
empty list; otherwise the `.get()` call on the `Action` object raises
`AttributeError`.  Nothing is returned and the node is untouched. -/
def getRandomUnseenActionRun (n : McNode) : Except PyErr String :=
  match n.unseenActions.getLast? with
  | none => .error .indexError
  | some _ => .error .attributeError

/-- `Node.attach_child` (players.py lines 783-788) as the source
executes it: `str(action)` and the first assert
(`action_string not in self.action_child`) evaluate; the second assert
then evaluates `self.unseen_actions[-1].get()` and raises
`AttributeError` (`IndexError` on an empty list), so the insertion into
`action_child` and the pop from `unseen_actions` are never reached. -/
def attachChildRun (n : McNode) (action : String) : Except PyErr McNode :=
  if action ∈ n.actionChild then .error .assertionError
  else
    match n.unseenActions.getLast? with
    | none => .error .indexError
    | some _ => .error .attributeError

/-- The partition invariant: unseen actions and child keys together are
exactly the legal actions (as a multiset). -/
def McPartition (n : McNode) : Prop :=
  (n.unseenActions ++ n.actionChild).Perm n.legal

/-! ## Theorems. -/

/-- Claim C3 (code bug): the spec requires Minimax and AlphaBeta to
compute the same root score, but in the source neither ever computes
one.  For every non-terminal game state both raise `TypeError` from the
`legal_actions(self.role, persistent=True)` call, identically, because
the only code in which the two classes differ (the break predicates)
lies beyond the raise; a terminal root returns its utility, the same in
both classes.  The third conjunct evaluates the root call
(`prev_min_step_score = max_utility + 1 = 101`) at a concrete
one-move game. -/
theorem C3_minimax_alphabeta_type_error :
    (∀ (ms : GMoves) (β : Int), scoreEstimateRun (.node ms) β = .error .typeError) ∧
    (∀ u β : Int, scoreEstimateRun (.leaf u) β = .ok u) ∧
    scoreEstimateRun (.node (.one (.one (.leaf 100)))) 101 = .error .typeError :=
  ⟨fun _ _ => rfl, fun _ _ => rfl, rfl⟩

/-! ## C1: apply_moves is a pure constructor of a fresh state. -/

/-- Claim C1: for every engine, state and joint move whose three Prolog
calls succeed (as they do when the move assigns exactly one legal action
to each role), `apply_moves` returns a newly constructed state built
from the call outputs, while the receiver's fields — `move_history`,
`truth_history`, `truth_state` — are unchanged by the call (for any
engine and move list, also on the error paths), so the receiver still
compares equal (`__eq__`) to its pre-call value. -/
theorem C1_apply_moves_frame (e : ApplyEngine) (s : GGState)
    (moves : List (String × String)) (pm th ts : String)
    (hp : e.prepareMoves s.gameId moves = some pm)
    (ht : e.truthHistory4 s.gameId (pm :: s.moveHistory) s.truthHistory = some th)
    (hf : e.finalTruthState th = some ts) :
    applyMoves e s moves =
      (.ok { gameId := s.gameId
             moveHistory := pm :: s.moveHistory
             truthHistory := th
             truthState := ts }, s) ∧
    (∀ (e' : ApplyEngine) (moves' : List (String × String)),
      (applyMoves e' s moves').2 = s ∧ ggStateEq s (applyMoves e' s moves').2 = true) := by
  constructor
  · simp only [applyMoves, hp, ht, hf]
  · intro e' moves'
    have h2 : (applyMoves e' s moves').2 = s := by
      cases hpp : e'.prepareMoves s.gameId moves' with
      | none => simp [applyMoves, hpp]
      | some pm' =>
        cases htt : e'.truthHistory4 s.gameId (pm' :: s.moveHistory) s.truthHistory with
        | none => simp [applyMoves, hpp, htt]
        | some th' =>
          cases hff : e'.finalTruthState th' with
          | none => simp [applyMoves, hpp, htt, hff]
          | some ts' => simp [applyMoves, hpp, htt, hff]
    refine ⟨h2, ?_⟩
    rw [h2]
    simp [ggStateEq]

/-- Witness for C1: a concrete state and move applied through the
always-succeeding engine. -/
theorem C1_witness :
    applyMoves okEngine ⟨"g", [], "th0", "ts0"⟩ [("x", "a")] =
      (.ok { gameId := "g", moveHistory := ["a"],
             truthHistory := "th0;a", truthState := "th0;a!" },
       ⟨"g", [], "th0", "ts0"⟩) ∧
    (∀ (e' : ApplyEngine) (moves' : List (String × String)),
      (applyMoves e' ⟨"g", [], "th0", "ts0"⟩ moves').2 = ⟨"g", [], "th0", "ts0"⟩ ∧
      ggStateEq ⟨"g", [], "th0", "ts0"⟩
        (applyMoves e' ⟨"g", [], "th0", "ts0"⟩ moves').2 = true) :=
  C1_apply_moves_frame okEngine ⟨"g", [], "th0", "ts0"⟩ [("x", "a")]
    "a" "th0;a" "th0;a!" rfl rfl rfl

/-! ## C2: utility takes the first goal solution, not the maximum. -/

/-- Counterexample to Claim C2 as stated: with goal clauses
`goal(r, 50)` and `goal(r, 100)` (in that program order), `utility("r")`
returns 50, the value of the first solution, not the numerically maximum
provable value 100. -/
theorem C2_counterexample :
    utilityModel twoGoalFacts "r" = some 50 ∧
    maxGoalValue twoGoalFacts "r" = some 100 ∧
    utilityModel twoGoalFacts "r" ≠ maxGoalValue twoGoalFacts "r" :=
  ⟨rfl, by decide, by decide⟩

/-- Claim C2 (amended): for every rule set and role, `utility` returns
the value of the first provable `goal(role, V)` solution in the
reasoner's (deterministic, program-order) solution order — which is the
maximum only when the first solution happens to be maximal, e.g. when
the solution is unique. -/
theorem C2_utility_first_solution (goalFacts : List (String × Int)) (role : String) :
    utilityModel goalFacts role = (goalSolutions goalFacts role).head? := by
  induction goalFacts with
  | nil => rfl
  | cons p rest ih =>
    obtain ⟨r, v⟩ := p
    by_cases hr : r = role
    · simp [utilityModel, goalSolutions, hr]
    · simpa [utilityModel, goalSolutions, hr] using ih

/-! ## C8: duplicate start returns 403 and leaves the handler alone. -/

/-- Claim C8: a well-formed `(start GAME_ID ...)` message whose game id
already has an active player produces HTTP status 403 and leaves the
handler state unchanged: the registered player for that id is still
registered and no game or player has been created. -/
theorem C8_duplicate_start_forbidden (st : ServerState) (args : List String)
    (gid : String) (p : Nat)
    (hlen : args.length = 5)
    (hid : args.getD 0 "" = gid)
    (hp : lookupPlayer st.gamePlayers gid = some p) :
    postStart st args = (403, st) ∧
    lookupPlayer (postStart st args).2.gamePlayers gid = some p ∧
    (postStart st args).2.createdGames = st.createdGames := by
  have hds : doStart st args = (.error (.forbidden "already being played"), st) := by
    unfold doStart
    rw [if_neg (by omega), hid]
    simp only [hp]
  have hps : postStart st args = (403, st) := by
    unfold postStart
    rw [hds]
  exact ⟨hps, by rw [hps]; exact hp, by rw [hps]⟩

/-- Witness for C8: game id "g" already playing. -/
theorem C8_witness :
    postStart ⟨["g"], [("g", 0)]⟩ ["g", "white", "rules", "10", "5"] =
      (403, ⟨["g"], [("g", 0)]⟩) ∧
    lookupPlayer (postStart ⟨["g"], [("g", 0)]⟩
      ["g", "white", "rules", "10", "5"]).2.gamePlayers "g" = some 0 ∧
    (postStart ⟨["g"], [("g", 0)]⟩
      ["g", "white", "rules", "10", "5"]).2.createdGames = ["g"] :=
  C8_duplicate_start_forbidden ⟨["g"], [("g", 0)]⟩
    ["g", "white", "rules", "10", "5"] "g" 0 rfl rfl rfl

/-! ## C10 and C6: Random.get_move raises before sampling. -/

/-- Counterexample to Claim C10 as stated: with no legal actions,
`Random.get_move` does not return the string "None" without error —
its `random_action` call omits the required `as_string` argument and
raises `TypeError` before the loop. -/
theorem C10_counterexample :
    randomGetMoveRun [] [] = .error .typeError ∧
    randomGetMoveRun [] [] ≠ .ok "None" :=
  ⟨rfl, fun h => Except.noConfusion h⟩

/-- Claim C10 (amended): with no legal actions the reservoir loop body
indeed never runs and `selected_action` stays `None` — observable
through the correctly bound call used by `play_random_game`, and
`str(None)` would be the string "None" — but `Random.get_move` itself
never enters `random_action`: it raises `TypeError` at argument
binding, for every draw sequence, and returns nothing. -/
theorem C10_get_move_raises (draws : List Nat) :
    randomAction ([] : List String) draws = none ∧
    callRandomAction [] draws (some false) = .ok none ∧
    pyStrOptAction none = "None" ∧
    randomGetMoveRun [] draws = .error .typeError :=
  ⟨rfl, rfl, rfl, rfl⟩

/-! ## C9: the ops that would maintain the partition crash. -/

/-- Claim C9 (code bug): node construction does establish the partition
— with an empty `action_child` dict, `_get_unseen_actions` returns a
permutation of all legal actions — but the operations meant to maintain
it while moving actions across never complete: on a node with at least
one unseen action, `get_random_unseen_action` and `attach_child` both
raise `AttributeError` at `unseen_actions[-1].get()` (`IndexError` on
an empty list), so `attach_child` never inserts a key into
`action_child` nor pops an unseen action, and no action is ever
transferred. -/
theorem C9_attach_child_attribute_error :
    (∀ legal shuffled : List String, shuffled.Perm legal →
      McPartition (mkMcNode legal shuffled)) ∧
    (∀ (n : McNode) (a : String), n.unseenActions.getLast? = some a →
      getRandomUnseenActionRun n = .error .attributeError) ∧
    (∀ (n : McNode) (action a : String), action ∉ n.actionChild →
      n.unseenActions.getLast? = some a →
      attachChildRun n action = .error .attributeError) ∧
    (∀ (n : McNode) (action : String) (n' : McNode),
      attachChildRun n action ≠ .ok n') := by
  refine ⟨?_, ?_, ?_, ?_⟩
  · intro legal shuffled hperm
    simpa [McPartition, mkMcNode] using hperm
  · intro n a hlast
    unfold getRandomUnseenActionRun
    rw [hlast]
  · intro n action a hmem hlast
    unfold attachChildRun
    rw [if_neg hmem, hlast]
  · intro n action n' hok
    unfold attachChildRun at hok
    by_cases hmem : action ∈ n.actionChild
    · rw [if_pos hmem] at hok
      exact Except.noConfusion hok
    · rw [if_neg hmem] at hok
      cases hl : n.unseenActions.getLast? with
      | none => rw [hl] at hok; exact Except.noConfusion hok
      | some a => rw [hl] at hok; exact Except.noConfusion hok

/-- Witness for C9 at a concrete node with two legal actions. -/
theorem C9_witness :
    McPartition (mkMcNode ["a", "b"] ["b", "a"]) ∧
    getRandomUnseenActionRun (mkMcNode ["a", "b"] ["b", "a"]) = .error .attributeError ∧
    attachChildRun (mkMcNode ["a", "b"] ["b", "a"]) "a" = .error .attributeError :=
  ⟨C9_attach_child_attribute_error.1 ["a", "b"] ["b", "a"] (by decide),
   C9_attach_child_attribute_error.2.1 (mkMcNode ["a", "b"] ["b", "a"]) "a" (by decide),
   C9_attach_child_attribute_error.2.2.1 (mkMcNode ["a", "b"] ["b", "a"]) "a" "a"
     (by decide) (by decide)⟩

/-! ## C4: BoundedDepth.get_move cannot complete any depth. -/

mutual

theorem mmBody_shape (maxd : Nat) :
    ∀ (t : BTree) (d : Nat) (sm : Bool) (β : Rat),
      mmBody maxd t d sm β = .error .typeError ∨
        ∃ v, mmBody maxd t d sm β = .ok v := by
  intro t d sm β
  cases t with
  | term u => right; exact ⟨(some u, []), rfl⟩
  | node h ms =>
    by_cases hd : maxd ≤ d
    · right
      refine ⟨(some (h * (4 / 5) + 10), []), ?_⟩
      simp [mmBody, hd]
    · by_cases htriv : sm = false ∧ movesCount ms = 1
      · right
        refine ⟨(none, [()]), ?_⟩
        simp [mmBody, hd, htriv]
      · left
        have hml := mmMaxLoop_err maxd ms d (-1) []
        simp [mmBody, hd, htriv, hml]

theorem mmMaxLoop_err (maxd : Nat) :
    ∀ (ms : BMoves) (d : Nat) (best : Rat) (bs : List Unit),
      mmMaxLoop maxd ms d best bs = .error .typeError := by
  intro ms d best bs
  cases ms with
  | one m =>
    have hm := mmMinLoop_err maxd m d 101 best
    simp [mmMaxLoop, hm]
  | cons m rest =>
    have hm := mmMinLoop_err maxd m d 101 best
    simp [mmMaxLoop, hm]

theorem mmMinLoop_err (maxd : Nat) :
    ∀ (m : BOpp) (d : Nat) (cur α : Rat),
      mmMinLoop maxd m d cur α = .error .typeError := by
  intro m d cur α
  cases m with
  | one c =>
    rcases mmBody_shape maxd c (d + 1) true cur with he | ⟨v, hv⟩
    · simp [mmMinLoop, he]
    · simp [mmMinLoop, hv]
  | cons c rest =>
    rcases mmBody_shape maxd c (d + 1) true cur with he | ⟨v, hv⟩
    · simp [mmMinLoop, he]
    · simp [mmMinLoop, hv]

end

theorem spGetMove_err (maxd : Nat) (t : BTree) :
    spGetMove maxd t = .error .typeError := by
  unfold spGetMove bdOverride
  rcases mmBody_shape maxd t 0 false 101 with he | ⟨v, hv⟩
  · rw [he]
  · rw [hv]

/-- Claim C4 (code bug): for `max_depth = -1`, instead of iterative
deepening that keeps and finally returns the best move of the last
completed depth, `BoundedDepth.get_move` raises `TypeError` during the
very first depth-1 search, for every game state and any positive amount
of time on the play clock, because
`BoundedDepth.score_estimate_and_move_sequence` never returns the result
of the superclass search (there is no `return` statement), so the tuple
unpacking `score, move_sequence = ...` in `SearchPlayer.get_move`
receives `None`. -/
theorem C4_bounded_depth_type_error (t : BTree) (fuel : Nat) :
    bdGetMoveID t (fuel + 1) = .error .typeError ∧
    bdGetMoveID exBTree 5 = .error .typeError := by
  constructor
  · unfold bdGetMoveID bdIDLoop
    rw [spGetMove_err 1 t]
  · rfl

/-! ## C5: MCTS expansion crashes before any child is attached. -/

theorem runSearchExec_childless {t t' : MTree}
    (h : RunSearchExec t (.ok t')) (hch : t.children = []) :
    t'.children = [] := by
  cases h with
  | stopTerminal u ts cs hsel => exact hch
  | descendOk b ts l1 l2 c c' hstep =>
    exact absurd hch (by simp [MTree.children])

/-- Claim C5 (code bug): the visit-count relation concerns nodes with
at least one child, but no such node can ever exist.  On every
non-terminal node at which the select loop stops with at least one
unseen action — in particular on the fresh root of the claim's scenario
— `run_search` raises `AttributeError` at `unseen_actions[-1].get()`
before attaching a leaf or updating any visit count; consequently along
every sequence of completed `run_search` invocations from a fresh root
the tree stays childless. -/
theorem C5_mcts_expand_attribute_error :
    (∀ (u ts : Nat) (cs : List MTree) (r : Except PyErr MTree),
      RunSearchExec (.mk false (u + 1) ts cs) r → r = .error .attributeError) ∧
    (∀ r0 r : MTree, FreshRoot r0 →
      Relation.ReflTransGen (fun a b => RunSearchExec a (.ok b)) r0 r →
      r.children = []) ∧
    RunSearchExec exRoot (.error .attributeError) := by
  refine ⟨?_, ?_, ?_⟩
  · intro u ts cs r h
    cases h with
    | expandAttrError => rfl
  · intro r0 r hf hsteps
    induction hsteps with
    | refl => exact hf.2.1
    | tail hprev hok ih => exact runSearchExec_childless hok ih
  · exact RunSearchExec.expandAttrError 1 0 [] (by decide)

/-- Witness for C5: the concrete fresh root with one legal action. -/
theorem C5_witness :
    exRoot.children = [] ∧ RunSearchExec exRoot (.error .attributeError) :=
  ⟨C5_mcts_expand_attribute_error.2.1 exRoot exRoot ⟨rfl, rfl, fun _ => le_refl 1⟩
      Relation.ReflTransGen.refl,
    C5_mcts_expand_attribute_error.2.2⟩

/-! ## C6: the reservoir pass is uniform, but get_move never runs it.
First the counting argument over all draw sequences. -/

theorem mem_drawSeqs_length : ∀ (n : Nat) (s : List Nat), s ∈ drawSeqs n → s.length = n := by
  intro n
  induction n with
  | zero =>
    intro s hs
    simp only [drawSeqs, List.mem_singleton] at hs
    simp [hs]
  | succ m ih =>
    intro s hs
    simp only [drawSeqs, List.mem_flatMap, List.mem_map] at hs
    obtain ⟨s', hs', r, _hr, rfl⟩ := hs
    simp [ih s' hs']

theorem countP_flatMap {γ β : Type} (l : List γ) (f : γ → List β) (p : β → Bool) :
    (l.flatMap f).countP p = (l.map fun x => (f x).countP p).sum := by
  induction l with
  | nil => rfl
  | cons x xs ih => simp [List.flatMap_cons, List.countP_append, ih]

theorem length_flatMap_sum {γ β : Type} (l : List γ) (f : γ → List β) :
    (l.flatMap f).length = (l.map fun x => (f x).length).sum := by
  induction l with
  | nil => rfl
  | cons x xs ih => simp [List.flatMap_cons, ih]

theorem sum_map_const {γ : Type} (l : List γ) (c : Nat) :
    (l.map fun _ => c).sum = l.length * c := by
  induction l with
  | nil => simp
  | cons x xs ih =>
    simp only [List.map_cons, List.sum_cons, List.length_cons, ih]
    ring

theorem sum_map_ite_count {γ : Type} (l : List γ) (p : γ → Bool) (c : Nat) :
    (l.map fun x => if p x then c else 0).sum = c * l.countP p := by
  induction l with
  | nil => simp
  | cons x xs ih =>
    by_cases hx : p x
    · simp only [List.map_cons, List.sum_cons, if_pos hx, ih, List.countP_cons, if_pos hx]
      ring
    · simp only [List.map_cons, List.sum_cons, if_neg hx, ih, List.countP_cons, if_neg hx]
      ring

theorem length_drawSeqs : ∀ n : Nat, (drawSeqs n).length = Nat.factorial n := by
  intro n
  induction n with
  | zero => rfl
  | succ m ih =>
    rw [show drawSeqs (m + 1) =
        (drawSeqs m).flatMap (fun s => (List.range (m + 1)).map (fun r => s ++ [r])) from rfl]
    rw [length_flatMap_sum]
    have hmap : ((drawSeqs m).map fun s =>
          ((List.range (m + 1)).map (fun r => s ++ [r])).length) =
        (drawSeqs m).map fun _ => m + 1 := by
      apply List.map_congr_left
      intro s _
      simp
    rw [hmap, sum_map_const, ih, Nat.factorial_succ]
    ring

theorem reservoir_snoc {α : Type} (acts : List α) (s : List Nat) (b : α) (r : Nat)
    (hlen : acts.length = s.length) :
    randomAction (acts ++ [b]) (s ++ [r]) =
      if r = 0 then some b else randomAction acts s := by
  unfold randomAction
  rw [List.zip_append hlen, List.foldl_append]
  simp only [List.zip_cons_cons, List.zip_nil_right, List.foldl_cons, List.foldl_nil]

theorem foldl_sel_mem {α : Type} :
    ∀ (l : List (α × Nat)) (init : Option α) (a : α),
      l.foldl (fun sel ad => if ad.2 = 0 then some ad.1 else sel) init = some a →
      init = some a ∨ a ∈ l.map Prod.fst := by
  intro l
  induction l with
  | nil => intro init a h; exact Or.inl h
  | cons x xs ih =>
    intro init a h
    rw [List.foldl_cons] at h
    rcases ih _ a h with hinit | hmem
    · by_cases hx : x.2 = 0
      · rw [if_pos hx] at hinit
        right
        rw [Option.some_inj] at hinit
        simp [← hinit]
      · rw [if_neg hx] at hinit
        exact Or.inl hinit
    · right
      simp only [List.map_cons, List.mem_cons]
      exact Or.inr hmem

theorem randomAction_mem {α : Type} (acts : List α) (s : List Nat) (a : α)
    (h : randomAction acts s = some a) : a ∈ acts := by
  unfold randomAction at h
  rcases foldl_sel_mem _ _ _ h with h0 | hmem
  · exact absurd h0 (by simp)
  · obtain ⟨⟨a', r⟩, hpair, hfst⟩ := List.mem_map.mp hmem
    rw [← hfst]
    exact (List.of_mem_zip hpair).1

theorem reservoir_count {α : Type} [DecidableEq α] :
    ∀ acts : List α, acts.Nodup → ∀ a, a ∈ acts →
      (drawSeqs acts.length).countP
          (fun s => decide (randomAction acts s = some a)) =
        Nat.factorial (acts.length - 1) := by
  intro acts
  induction acts using List.reverseRecOn with
  | nil =>
    intro _ a ha
    exact absurd ha (List.not_mem_nil a)
  | append_singleton ys b ih =>
    intro hnd a ha
    have hysnd : ys.Nodup := hnd.of_append_left
    have hbys : b ∉ ys := by
      intro hb
      exact (List.nodup_append.mp hnd).2.2 hb (by simp)
    have hlen : (ys ++ [b]).length = ys.length + 1 := by simp
    rw [hlen]
    rw [show drawSeqs (ys.length + 1) = (drawSeqs ys.length).flatMap
        (fun s => (List.range (ys.length + 1)).map (fun r => s ++ [r])) from rfl]
    rw [countP_flatMap]
    simp only [Nat.add_sub_cancel]
    by_cases hab : a = b
    · have hin : ∀ s ∈ drawSeqs ys.length,
          ((List.range (ys.length + 1)).map (fun r => s ++ [r])).countP
            (fun q => decide (randomAction (ys ++ [b]) q = some a)) = 1 := by
        intro s hs
        have hsl : ys.length = s.length := (mem_drawSeqs_length ys.length s hs).symm
        rw [List.countP_map]
        have hcong : List.countP
              ((fun q => decide (randomAction (ys ++ [b]) q = some a)) ∘ fun r => s ++ [r])
              (List.range (ys.length + 1)) =
            List.countP (fun r => decide (r = 0)) (List.range (ys.length + 1)) := by
          apply List.countP_congr
          intro r _
          simp only [Function.comp_apply, decide_eq_true_eq]
          rw [reservoir_snoc ys s b r hsl]
          by_cases hr : r = 0
          · simp [hr, hab]
          · have hno : randomAction ys s ≠ some a := by
              intro hcon
              exact hbys (hab ▸ randomAction_mem ys s a hcon)
            simp [hr, hno]
        rw [hcong, List.range_succ_eq_map, List.countP_cons, List.countP_map]
        have hzero : List.countP ((fun r => decide (r = 0)) ∘ Nat.succ)
            (List.range ys.length) = 0 := by
          rw [show ((fun r => decide (r = 0)) ∘ Nat.succ) = fun _ => false by
            funext r; simp]
          simp [List.countP_false]
        rw [hzero]
        simp
      rw [List.map_congr_left hin, sum_map_const, length_drawSeqs]
      simp
    · have hays : a ∈ ys := by
        rcases List.mem_append.mp ha with h1 | h2
        · exact h1
        · exact absurd (List.mem_singleton.mp h2) hab
      have hysne : ys ≠ [] := by
        intro hnil
        rw [hnil] at hays
        exact absurd hays (List.not_mem_nil a)
      have hin : ∀ s ∈ drawSeqs ys.length,
          ((List.range (ys.length + 1)).map (fun r => s ++ [r])).countP
            (fun q => decide (randomAction (ys ++ [b]) q = some a)) =
          if decide (randomAction ys s = some a) then ys.length else 0 := by
        intro s hs
        have hsl : ys.length = s.length := (mem_drawSeqs_length ys.length s hs).symm
        rw [List.countP_map]
        by_cases hsel : randomAction ys s = some a
        · have hcong : List.countP
                ((fun q => decide (randomAction (ys ++ [b]) q = some a)) ∘ fun r => s ++ [r])
                (List.range (ys.length + 1)) =
              List.countP (fun r => decide (r ≠ 0)) (List.range (ys.length + 1)) := by
            apply List.countP_congr
            intro r _
            simp only [Function.comp_apply, decide_eq_true_eq, ne_eq]
            rw [reservoir_snoc ys s b r hsl]
            by_cases hr : r = 0
            · simp only [if_pos hr, hr]
              simp [Ne.symm hab]
            · simp [hr, hsel]
          rw [hcong, List.range_succ_eq_map, List.countP_cons, List.countP_map]
          have hone : List.countP ((fun r => decide (r ≠ 0)) ∘ Nat.succ)
              (List.range ys.length) = ys.length := by
            rw [show ((fun r => decide (r ≠ 0)) ∘ Nat.succ) = fun _ => true by
              funext r; simp]
            simp [List.countP_true]
          rw [hone]
          simp [hsel]
        · have hcong : List.countP
                ((fun q => decide (randomAction (ys ++ [b]) q = some a)) ∘ fun r => s ++ [r])
                (List.range (ys.length + 1)) =
              List.countP (fun _ => false) (List.range (ys.length + 1)) := by
            apply List.countP_congr
            intro r _
            simp only [Function.comp_apply, decide_eq_true_eq, Bool.false_eq_true, iff_false]
            rw [reservoir_snoc ys s b r hsl]
            by_cases hr : r = 0
            · simp [hr, Ne.symm hab]
            · simp [hr, hsel]
          rw [hcong]
          simp [List.countP_false, hsel]
      rw [List.map_congr_left hin, sum_map_ite_count, ih hysnd a hays]
      obtain ⟨k, hk⟩ : ∃ k, ys.length = k + 1 := by
        cases hys : ys with
        | nil => exact absurd hys hysne
        | cons y ys' => exact ⟨ys'.length, by simp⟩
      rw [hk]
      simp [Nat.factorial_succ]

/-- The reservoir pass of `random_action` itself — as entered through
the correctly bound call in `play_random_game` — is uniform: for a list
of `n ≥ 1` distinct actions, with each draw `random.randint(0, i)`
uniform over `0..i` and draws independent (all `n!` draw sequences
equally likely), each action is selected with probability exactly
`1/n`. -/
theorem randomAction_uniform {α : Type} [DecidableEq α] (acts : List α) (a : α)
    (hnd : acts.Nodup) (ha : a ∈ acts) :
    ((drawSeqs acts.length).countP
        (fun s => decide (randomAction acts s = some a)) : ℚ) /
      ((drawSeqs acts.length).length : ℚ) = 1 / (acts.length : ℚ) ∧
    (drawSeqs acts.length).countP (fun s => decide (randomAction acts s = some a)) *
      acts.length = (drawSeqs acts.length).length := by
  have hne : acts.length ≠ 0 := by
    intro h0
    rw [List.length_eq_zero] at h0
    rw [h0] at ha
    exact absurd ha (List.not_mem_nil a)
  obtain ⟨k, hk⟩ : ∃ k, acts.length = k + 1 := ⟨acts.length - 1, by omega⟩
  have hcount := reservoir_count acts hnd a ha
  have hlen := length_drawSeqs acts.length
  have hnat : (drawSeqs acts.length).countP
      (fun s => decide (randomAction acts s = some a)) * acts.length =
      (drawSeqs acts.length).length := by
    rw [hcount, hlen, hk]
    simp [Nat.factorial_succ]
    ring
  refine ⟨?_, hnat⟩
  have hlenpos : (0 : ℚ) < ((drawSeqs acts.length).length : ℚ) := by
    rw [hlen, hk]
    exact_mod_cast Nat.factorial_pos (k + 1)
  have hnpos : (0 : ℚ) < (acts.length : ℚ) := by
    exact_mod_cast Nat.pos_of_ne_zero hne
  rw [div_eq_div_iff (by positivity) (by positivity)]
  push_cast [← hnat]
  ring

/-- Claim C6 (code bug): `Random.get_move` never makes the sampling
pass — its `random_action` call omits the required `as_string`
parameter and raises `TypeError` at argument binding, for every state
and every draw sequence — so it returns no action at all.  The helper
itself is a correct single reservoir pass: through the correctly bound
call used by `play_random_game` it selects each of `n` distinct legal
actions with probability exactly `1/n`; `get_move` never reaches it. -/
theorem C6_random_get_move_type_error :
    (∀ (actions : List String) (draws : List Nat),
      randomGetMoveRun actions draws = .error .typeError) ∧
    (∀ (actions : List String) (draws : List Nat),
      callRandomAction actions draws (some false) = .ok (randomAction actions draws)) ∧
    (∀ (acts : List String) (a : String), acts.Nodup → a ∈ acts →
      ((drawSeqs acts.length).countP
          (fun s => decide (randomAction acts s = some a)) : ℚ) /
        ((drawSeqs acts.length).length : ℚ) = 1 / (acts.length : ℚ)) :=
  ⟨fun _ _ => rfl, fun _ _ => rfl,
   fun acts a hnd ha => (randomAction_uniform acts a hnd ha).1⟩

/-- Witness for C6 with three legal actions and a concrete draw list. -/
theorem C6_witness :
    randomGetMoveRun ["a", "b", "c"] [0, 1, 2] = .error .typeError ∧
    callRandomAction ["a", "b", "c"] [0, 1, 2] (some false) =
      .ok (randomAction ["a", "b", "c"] [0, 1, 2]) ∧
    (((drawSeqs (["a", "b", "c"] : List String).length).countP
        (fun s => decide (randomAction ["a", "b", "c"] s = some "b")) : ℚ) /
      ((drawSeqs (["a", "b", "c"] : List String).length).length : ℚ) =
        1 / ((["a", "b", "c"] : List String).length : ℚ)) :=
  ⟨C6_random_get_move_type_error.1 ["a", "b", "c"] [0, 1, 2],
   C6_random_get_move_type_error.2.1 ["a", "b", "c"] [0, 1, 2],
   C6_random_get_move_type_error.2.2 ["a", "b", "c"] "b" (by decide) (by decide)⟩

/-! ## C7: per-statement variable scoping of the GDL translator. -/

mutual

theorem trTerm_mono (t : GdlTerm) (st : VarState) :
    st.next ≤ (trTerm t st).2.next ∧
    ∀ v i, lookupVar st.vars v = some i → lookupVar (trTerm t st).2.vars v = some i := by
  cases t with
  | atom s => exact ⟨le_refl _, fun v i h => h⟩
  | var w =>
    cases hl : lookupVar st.vars w with
    | some i =>
      simp only [trTerm, hl]
      exact ⟨le_refl _, fun v i h => h⟩
    | none =>
      simp only [trTerm, hl]
      refine ⟨Nat.le_succ _, fun v i h => ?_⟩
      simp only [lookupVar]
      by_cases hwv : w = v
      · rw [hwv] at hl
        rw [hl] at h
        exact absurd h (by simp)
      · rw [if_neg hwv]
        exact h
  | comp n args =>
    simp only [trTerm]
    exact trArgs_mono args st

theorem trArgs_mono (ts : GdlArgs) (st : VarState) :
    st.next ≤ (trArgs ts st).2.next ∧
    ∀ v i, lookupVar st.vars v = some i → lookupVar (trArgs ts st).2.vars v = some i := by
  cases ts with
  | nil => exact ⟨le_refl _, fun v i h => h⟩
  | cons t rest =>
    simp only [trArgs]
    have h1 := trTerm_mono t st
    have h2 := trArgs_mono rest (trTerm t st).2
    exact ⟨le_trans h1.1 h2.1, fun v i h => h2.2 v i (h1.2 v i h)⟩

end

mutual

theorem applyMap_mono (t : GdlTerm) (m m' : List (String × Nat)) (t' : PrologT)
    (hext : ∀ v i, lookupVar m v = some i → lookupVar m' v = some i)
    (h : applyMap m t = some t') : applyMap m' t = some t' := by
  cases t with
  | atom s => exact h
  | var w =>
    simp only [applyMap] at h ⊢
    cases hl : lookupVar m w with
    | none => rw [hl] at h; exact absurd h (by simp)
    | some i =>
      rw [hl] at h
      rw [hext w i hl]
      exact h
  | comp n args =>
    simp only [applyMap] at h ⊢
    cases hargs : applyMapArgs m args with
    | none => rw [hargs] at h; exact absurd h (by simp)
    | some args' =>
      rw [hargs] at h
      rw [applyMapArgs_mono args m m' args' hext hargs]
      exact h

theorem applyMapArgs_mono (ts : GdlArgs) (m m' : List (String × Nat)) (ts' : PrologArgs)
    (hext : ∀ v i, lookupVar m v = some i → lookupVar m' v = some i)
    (h : applyMapArgs m ts = some ts') : applyMapArgs m' ts = some ts' := by
  cases ts with
  | nil => exact h
  | cons t rest =>
    simp only [applyMapArgs] at h ⊢
    cases ht : applyMap m t with
    | none => rw [ht] at h; exact absurd h (by simp)
    | some t' =>
      rw [ht] at h
      cases hr : applyMapArgs m rest with
      | none => rw [hr] at h; exact absurd h (by simp)
      | some rest' =>
        rw [hr] at h
        rw [applyMap_mono t m m' t' hext ht,
          applyMapArgs_mono rest m m' rest' hext hr]
        exact h

end

mutual

theorem trTerm_applyMap (t : GdlTerm) (st : VarState) :
    applyMap (trTerm t st).2.vars t = some (trTerm t st).1 := by
  cases t with
  | atom s => rfl
  | var w =>
    cases hl : lookupVar st.vars w with
    | some i => simp only [trTerm, hl, applyMap]; rfl
    | none =>
      simp only [trTerm, hl, applyMap]
      have : lookupVar ((w, st.next) :: st.vars) w = some st.next := by
        simp [lookupVar]
      rw [this]
      rfl
  | comp n args =>
    simp only [trTerm, applyMap]
    rw [trArgs_applyMap args st]
    rfl

theorem trArgs_applyMap (ts : GdlArgs) (st : VarState) :
    applyMapArgs (trArgs ts st).2.vars ts = some (trArgs ts st).1 := by
  cases ts with
  | nil => rfl
  | cons t rest =>
    simp only [trArgs, applyMapArgs]
    have h1 := trTerm_applyMap t st
    have h2 := trArgs_applyMap rest (trTerm t st).2
    have hext := (trArgs_mono rest (trTerm t st).2).2
    rw [applyMap_mono t (trTerm t st).2.vars (trArgs rest (trTerm t st).2).2.vars
      (trTerm t st).1 hext h1]
    rw [h2]

end

mutual

theorem trTerm_inj (t : GdlTerm) (st : VarState)
    (hinj : ∀ v w i, lookupVar st.vars v = some i → lookupVar st.vars w = some i → v = w)
    (hbnd : ∀ v i, lookupVar st.vars v = some i → i < st.next) :
    (∀ v w i, lookupVar (trTerm t st).2.vars v = some i →
      lookupVar (trTerm t st).2.vars w = some i → v = w) ∧
    (∀ v i, lookupVar (trTerm t st).2.vars v = some i → i < (trTerm t st).2.next) := by
  cases t with
  | atom s => exact ⟨hinj, hbnd⟩
  | var w0 =>
    cases hl : lookupVar st.vars w0 with
    | some i =>
      simp only [trTerm, hl]
      exact ⟨hinj, hbnd⟩
    | none =>
      simp only [trTerm, hl]
      constructor
      · intro v w i hv hw
        simp only [lookupVar] at hv hw
        by_cases hv0 : w0 = v
        · rw [if_pos hv0] at hv
          by_cases hw0 : w0 = w
          · rw [← hv0, ← hw0]
          · rw [if_neg hw0] at hw
            have := hbnd w i hw
            rw [Option.some_inj] at hv
            omega
        · rw [if_neg hv0] at hv
          by_cases hw0 : w0 = w
          · rw [if_pos hw0] at hw
            have := hbnd v i hv
            rw [Option.some_inj] at hw
            omega
          · rw [if_neg hw0] at hw
            exact hinj v w i hv hw
      · intro v i hv
        simp only [lookupVar] at hv
        by_cases hv0 : w0 = v
        · rw [if_pos hv0] at hv
          rw [Option.some_inj] at hv
          omega
        · rw [if_neg hv0] at hv
          have := hbnd v i hv
          omega
  | comp n args =>
    simp only [trTerm]
    exact trArgs_inj args st hinj hbnd

theorem trArgs_inj (ts : GdlArgs) (st : VarState)
    (hinj : ∀ v w i, lookupVar st.vars v = some i → lookupVar st.vars w = some i → v = w)
    (hbnd : ∀ v i, lookupVar st.vars v = some i → i < st.next) :
    (∀ v w i, lookupVar (trArgs ts st).2.vars v = some i →
      lookupVar (trArgs ts st).2.vars w = some i → v = w) ∧
    (∀ v i, lookupVar (trArgs ts st).2.vars v = some i → i < (trArgs ts st).2.next) := by
  cases ts with
  | nil => exact ⟨hinj, hbnd⟩
  | cons t rest =>
    simp only [trArgs]
    have h1 := trTerm_inj t st hinj hbnd
    exact trArgs_inj rest (trTerm t st).2 h1.1 h1.2

end

mutual

theorem trTerm_varIds (t : GdlTerm) (st : VarState) (lo : Nat)
    (hlo : lo ≤ st.next)
    (hbnd : ∀ v i, lookupVar st.vars v = some i → lo ≤ i ∧ i < st.next) :
    (∀ j ∈ varIds (trTerm t st).1, lo ≤ j ∧ j < (trTerm t st).2.next) ∧
    lo ≤ (trTerm t st).2.next ∧
    (∀ v i, lookupVar (trTerm t st).2.vars v = some i →
      lo ≤ i ∧ i < (trTerm t st).2.next) := by
  cases t with
  | atom s =>
    refine ⟨fun j hj => ?_, hlo, hbnd⟩
    simp only [trTerm, varIds] at hj
    exact absurd hj (List.not_mem_nil j)
  | var w =>
    cases hl : lookupVar st.vars w with
    | some i =>
      simp only [trTerm, hl]
      refine ⟨fun j hj => ?_, hlo, hbnd⟩
      simp only [varIds, List.mem_singleton] at hj
      subst hj
      exact hbnd w j hl
    | none =>
      simp only [trTerm, hl]
      refine ⟨fun j hj => ?_, by omega, fun v i hv => ?_⟩
      · simp only [varIds, List.mem_singleton] at hj
        subst hj
        omega
      · simp only [lookupVar] at hv
        by_cases hv0 : w = v
        · rw [if_pos hv0] at hv
          rw [Option.some_inj] at hv
          omega
        · rw [if_neg hv0] at hv
          have := hbnd v i hv
          omega
  | comp n args =>
    simp only [trTerm, varIds]
    exact trArgs_varIds args st lo hlo hbnd

theorem trArgs_varIds (ts : GdlArgs) (st : VarState) (lo : Nat)
    (hlo : lo ≤ st.next)
    (hbnd : ∀ v i, lookupVar st.vars v = some i → lo ≤ i ∧ i < st.next) :
    (∀ j ∈ varIdsArgs (trArgs ts st).1, lo ≤ j ∧ j < (trArgs ts st).2.next) ∧
    lo ≤ (trArgs ts st).2.next ∧
    (∀ v i, lookupVar (trArgs ts st).2.vars v = some i →
      lo ≤ i ∧ i < (trArgs ts st).2.next) := by
  cases ts with
  | nil =>
    refine ⟨fun j hj => ?_, hlo, hbnd⟩
    simp only [trArgs, varIdsArgs] at hj
    exact absurd hj (List.not_mem_nil j)
  | cons t rest =>
    simp only [trArgs, varIdsArgs]
    have h1 := trTerm_varIds t st lo hlo hbnd
    have h2 := trArgs_varIds rest (trTerm t st).2 lo h1.2.1 h1.2.2
    have hmono := (trArgs_mono rest (trTerm t st).2).1
    refine ⟨fun j hj => ?_, h2.2.1, h2.2.2⟩
    rcases List.mem_append.mp hj with hj1 | hj2
    · have := h1.1 j hj1
      omega
    · exact h2.1 j hj2

end

/-- Claim C7: translating a top-level statement from the per-statement
empty variable dict sends every occurrence of one variable token to one
Prolog variable (the statement equals the pure substitution of the
resulting name-to-variable map, which moreover is injective); and
because the dict is discarded at the end of every statement while the
fresh-variable supply moves on, the variables of two consecutively
translated statements are disjoint — the same token in two statements
yields distinct, unrelated variables. -/
theorem C7_variable_scoping (s1 s2 : GdlTerm) (c : Nat) :
    (applyMap (trTerm s1 ⟨[], c⟩).2.vars s1 = some (trStatement s1 c).1 ∧
      MapInj (trTerm s1 ⟨[], c⟩).2.vars) ∧
    (∀ i ∈ varIds (trStatement s1 c).1,
      ∀ j ∈ varIds (trStatement s2 (trStatement s1 c).2).1, i ≠ j) := by
  have hempty : ∀ v i, lookupVar ([] : List (String × Nat)) v = some i → False := by
    intro v i h
    exact absurd h (by simp [lookupVar])
  constructor
  · constructor
    · exact trTerm_applyMap s1 ⟨[], c⟩
    · have := trTerm_inj s1 ⟨[], c⟩
        (fun v w i hv _ => absurd hv (fun h => hempty v i h))
        (fun v i hv => absurd hv (fun h => hempty v i h))
      exact this.1
  · intro i hi j hj
    have h1 := trTerm_varIds s1 ⟨[], c⟩ c (le_refl c)
      (fun v i hv => absurd hv (fun h => hempty v i h))
    have h2 := trTerm_varIds s2 ⟨[], (trTerm s1 ⟨[], c⟩).2.next⟩
      (trTerm s1 ⟨[], c⟩).2.next (le_refl _)
      (fun v i hv => absurd hv (fun h => hempty v i h))
    have hi' := h1.1 i hi
    have hj' := h2.1 j hj
    simp only [trStatement] at hj
    have hj'' := h2.1 j hj
    omega

/-- Witness for C7: the statement `(legal ?x ?x)` followed by the
statement `(next ?x)`. -/
theorem C7_witness :
    (applyMap (trTerm (.comp "legal" (.cons (.var "x") (.cons (.var "x") .nil)))
        ⟨[], 0⟩).2.vars
        (.comp "legal" (.cons (.var "x") (.cons (.var "x") .nil))) =
      some (trStatement (.comp "legal" (.cons (.var "x") (.cons (.var "x") .nil))) 0).1 ∧
      MapInj (trTerm (.comp "legal" (.cons (.var "x") (.cons (.var "x") .nil)))
        ⟨[], 0⟩).2.vars) ∧
    (∀ i ∈ varIds (trStatement
        (.comp "legal" (.cons (.var "x") (.cons (.var "x") .nil))) 0).1,
      ∀ j ∈ varIds (trStatement (.comp "next" (.cons (.var "x") .nil))
        (trStatement (.comp "legal" (.cons (.var "x") (.cons (.var "x") .nil))) 0).2).1,
      i ≠ j) :=
  C7_variable_scoping (.comp "legal" (.cons (.var "x") (.cons (.var "x") .nil)))
    (.comp "next" (.cons (.var "x") .nil)) 0

end GGP
